import Mathlib

/-!
# Verification of the asynchronous summarization job queue

A shallow embedding of the job-queue core of the document-summarization
service (`job_queue.py`) together with the HTTP facade and backend glue
(`backend.py`), and proofs of the specified properties.

Modelling conventions:

* The system runs on a single cooperative event loop (`asyncio`): code
  between two `await` points executes atomically with respect to every
  other coroutine.  The worker coroutine has exactly two suspension
  points — `await self._queue.get()` and
  `await ... run_in_executor(...)` — so its loop body decomposes into two
  atomic steps: *dequeue* (pop the queue head and mark it `PROCESSING`)
  and *finish* (record the executor outcome, terminal status, timing and
  `completed_at`, then loop).  `submit` has no interior suspension point
  that can interleave with its own mutations (`asyncio.Queue.put` on an
  unbounded queue does not yield control before enqueuing), so it is one
  atomic step.  `get_status`/`get_stats` are synchronous reads.
* `uuid.uuid4()` is modelled as a fresh-identifier source: job ids are
  naturals drawn from a counter, so ids are assigned in submission
  order.  (The code relies on uuid uniqueness in exactly this way.)
* Wall-clock time (`time.time()`, `datetime.now().isoformat()`) is
  modelled as a `Nat` tick counter incremented at every atomic step;
  `time_taken = round(time.time() - start, 2)` becomes the tick
  difference, `isoformat` timestamps become the tick value.
* Exceptions raised by the executor call are modelled as
  `Except String String`: `.error msg` is an exception whose `str(e)`
  is `msg`; `.ok s` is a normal return.
* Python `str.strip()` is modelled by `pyStrip` (drop whitespace from
  both ends; only emptiness after stripping matters here).
-/

/-- `class JobStatus(str, Enum)` of `job_queue.py`. -/
inductive JobStatus where
  | queued
  | processing
  | completed
  | failed
deriving DecidableEq

/-- `class Job` of `job_queue.py`: request payload, lifecycle state,
result fields and timestamps.  `job_id` is a `Nat` (see module comment),
timestamps are tick values. -/
structure Job where
  job_id : Nat
  text : String
  model_name : String
  summary_type : String
  status : JobStatus
  summary : Option String
  error : Option String
  time_taken : Option Nat
  submitted_at : Nat
  completed_at : Option Nat
deriving DecidableEq

/-- `Job.__init__`: a freshly constructed job (status `QUEUED`, result
fields `None`, `submitted_at = datetime.now()`). -/
def mkJob (id : Nat) (text model_name summary_type : String) (now : Nat) : Job :=
  { job_id := id
    text := text
    model_name := model_name
    summary_type := summary_type
    status := JobStatus.queued
    summary := none
    error := none
    time_taken := none
    submitted_at := now
    completed_at := none }

/-- The dictionary returned by `Job.to_dict`. -/
structure JobDict where
  job_id : Nat
  model : String
  summary_type : String
  status : JobStatus
  summary : Option String
  error : Option String
  time : Option Nat
  submitted_at : Nat
  completed_at : Option Nat
deriving DecidableEq

/-- `Job.to_dict` of `job_queue.py`. -/
def Job.to_dict (j : Job) : JobDict :=
  { job_id := j.job_id
    model := j.model_name
    summary_type := j.summary_type
    status := j.status
    summary := j.summary
    error := j.error
    time := j.time_taken
    submitted_at := j.submitted_at
    completed_at := j.completed_at }

/-- Lookup in the `self._jobs` dict (`dict.get`): first entry with the
given key. -/
def lookupJob (id : Nat) : List (Nat × Job) → Option Job
  | [] => none
  | (k, j) :: rest => if k = id then some j else lookupJob id rest

/-- In-place mutation of the job stored under `id` (the worker mutates
the `Job` object held in `self._jobs`). -/
def updateJob (id : Nat) (f : Job → Job) : List (Nat × Job) → List (Nat × Job)
  | [] => []
  | (k, j) :: rest =>
      if k = id then (k, f j) :: updateJob id f rest
      else (k, j) :: updateJob id f rest

/-- Where the worker coroutine is suspended: `idle` at
`await self._queue.get()`, `busy id start` at the
`await ... run_in_executor(...)` call for job `id`, with `start` the
recorded `time.time()`. -/
inductive WorkerPhase where
  | idle
  | busy (jobId : Nat) (start : Nat)
deriving DecidableEq

/-- Global state of one `SummarizationQueue` plus its single worker
task: `jobs` is `self._jobs` (insertion-ordered dict as an association
list), `queue` is `self._queue` (FIFO of job ids, head = next out),
`nextId` the fresh-identifier counter modelling `uuid4`, `clock` the
tick counter, `phase` the worker position. -/
structure QState where
  jobs : List (Nat × Job)
  queue : List Nat
  nextId : Nat
  clock : Nat
  phase : WorkerPhase
deriving DecidableEq

/-- State at process startup: empty store, empty queue, worker parked at
`queue.get()`. -/
def initState : QState :=
  { jobs := [], queue := [], nextId := 0, clock := 0, phase := WorkerPhase.idle }

/-- `SummarizationQueue.submit`: create a `Job`, store it under its id,
enqueue it, return the id.  One atomic step of the event loop. -/
def submit (s : QState) (text model_name summary_type : String) : Nat × QState :=
  let id := s.nextId
  let job := mkJob id text model_name summary_type s.clock
  (id,
    { s with
        jobs := s.jobs ++ [(id, job)]
        queue := s.queue ++ [id]
        nextId := id + 1
        clock := s.clock + 1 })

/-- `SummarizationQueue.get_status`: current state of a job, or `none`
if not found. -/
def get_status (s : QState) (job_id : Nat) : Option JobDict :=
  (lookupJob job_id s.jobs).map Job.to_dict

/-- The dictionary returned by `SummarizationQueue.get_stats`. -/
structure Stats where
  pending : Nat
  total : Nat
  queued : Nat
  processing : Nat
  completed : Nat
  failed : Nat
deriving DecidableEq

/-- `SummarizationQueue.get_stats`: queue-level statistics computed from
`self._queue.qsize()` and the statuses of all stored jobs. -/
def get_stats (s : QState) : Stats :=
  let statuses := s.jobs.map (fun p => p.2.status)
  { pending := s.queue.length
    total := s.jobs.length
    queued := statuses.count JobStatus.queued
    processing := statuses.count JobStatus.processing
    completed := statuses.count JobStatus.completed
    failed := statuses.count JobStatus.failed }

/-- The atomic steps of the event loop: a caller submitting, the worker
waking from `queue.get()`, or the worker resuming after the executor
call returns (`outcome` is the executor result: `.ok summary` or an
exception with message). -/
inductive Event where
  | submit (text model_name summary_type : String)
  | dequeue
  | finish (outcome : Except String String)

/-- The `finally`-guarded tail of the worker loop body
(`job_queue.py` lines 105-127): on success set `summary`, `COMPLETED`
and `time_taken`; on any exception set `FAILED`, `error = str(e)` and
`time_taken`; always set `completed_at`. -/
def finishJob (outcome : Except String String) (start now : Nat) (j : Job) : Job :=
  match outcome with
  | Except.ok summary =>
      { j with
          summary := some summary
          status := JobStatus.completed
          time_taken := some (now - start)
          completed_at := some now }
  | Except.error msg =>
      { j with
          status := JobStatus.failed
          error := some msg
          time_taken := some (now - start)
          completed_at := some now }

/-- One atomic step of the system.  A `dequeue` with a busy worker or an
empty queue, and a `finish` with an idle worker, cannot occur (the
worker is suspended elsewhere); they leave the state unchanged. -/
def step (s : QState) : Event → QState
  | Event.submit t m ty => (submit s t m ty).2
  | Event.dequeue =>
      match s.phase, s.queue with
      | WorkerPhase.idle, id :: rest =>
          { s with
              queue := rest
              jobs := updateJob id (fun j => { j with status := JobStatus.processing }) s.jobs
              phase := WorkerPhase.busy id s.clock
              clock := s.clock + 1 }
      | _, _ => s
  | Event.finish outcome =>
      match s.phase with
      | WorkerPhase.busy id start =>
          { s with
              jobs := updateJob id (finishJob outcome start s.clock) s.jobs
              phase := WorkerPhase.idle
              clock := s.clock + 1 }
      | WorkerPhase.idle => s

/-- States reachable from startup under arbitrary interleavings of
submissions and worker progress. -/
inductive Reachable : QState → Prop where
  | init : Reachable initState
  | step (s : QState) (e : Event) : Reachable s → Reachable (step s e)

/-! ## The HTTP facade and backend glue (`backend.py`) -/

/-- Python `str.strip()`: remove leading and trailing whitespace. -/
def pyStrip (s : String) : String :=
  String.mk (((s.data.dropWhile Char.isWhitespace).reverse.dropWhile
    Char.isWhitespace).reverse)

/-- `AVAILABLE_MODELS` of `backend.py`: the model registry. -/
def AVAILABLE_MODELS : List String := ["llama3.2", "phi3"]

/-- The `"comprehensive"` prompt template of `backend.py` (apostrophes
and the braces of the `format` placeholder written as hex escapes). -/
def comprehensivePrompt : String :=
  "You are a professional document analyst.\n\n"
    ++ "RULES:\n"
    ++ "1. Start with: \x27This document is [type] about [main topic/purpose].\x27\n"
    ++ "2. Summarize all key information clearly and concisely (300-400 words).\n"
    ++ "3. Do not over-emphasize brand names or trademarks.\n"
    ++ "4. Focus on substance: purpose, findings, arguments, or recommendations.\n\n"
    ++ "Document:\n\x7btext\x7d\n\nSummary:"

/-- The `"executive"` prompt template of `backend.py`. -/
def executivePrompt : String :=
  "You are a senior business analyst writing for executives.\n\n"
    ++ "RULES:\n"
    ++ "1. First sentence: state what this document is and its core business purpose.\n"
    ++ "2. Highlight the most critical decisions, findings, or recommendations.\n"
    ++ "3. Be concise and action-oriented (150-200 words).\n\n"
    ++ "Document:\n\x7btext\x7d\n\nExecutive Summary:"

/-- The `"bullet_points"` prompt template of `backend.py`. -/
def bulletPointsPrompt : String :=
  "You are a professional document analyst.\n\n"
    ++ "RULES:\n"
    ++ "1. First line: \x27This document is [type] about [topic].\x27\n"
    ++ "2. List 5-7 key points as bullet points.\n"
    ++ "3. Each bullet must be a complete, informative sentence.\n"
    ++ "4. Focus on purpose, key facts, and conclusions — not entity names.\n\n"
    ++ "Document:\n\x7btext\x7d\n\nKey Points:"

/-- Lookup in a string-keyed dict (`dict.get`). -/
def lookupStr (key : String) : List (String × String) → Option String
  | [] => none
  | (k, v) :: rest => if k = key then some v else lookupStr key rest

/-- `PROMPTS` of `backend.py`: the prompt-template dict. -/
def PROMPTS : List (String × String) :=
  [("comprehensive", comprehensivePrompt),
   ("executive", executivePrompt),
   ("bullet_points", bulletPointsPrompt)]

/-- `PROMPTS.get(summary_type, PROMPTS["comprehensive"])` in
`summarize`. -/
def promptTemplateFor (summary_type : String) : String :=
  match lookupStr summary_type PROMPTS with
  | some t => t
  | none => comprehensivePrompt

/-- Outcome of `requests.post(OLLAMA_URL, ...)` as `summarize`
distinguishes it: a 2xx JSON body's `"response"` field, a connection
failure, a timeout, or a non-2xx status (which `raise_for_status`
turns into an uncaught `HTTPError`). -/
inductive OllamaOutcome where
  | response (body : String)
  | connectionError
  | timeout
  | httpStatusError (code : Nat)

/-- `summarize` of `backend.py`, parametrised by the HTTP POST (`post`
maps the rendered prompt to the Ollama outcome).  Raised exceptions
become `Except.error` with the exception's message. -/
def summarize (post : String → OllamaOutcome)
    (text model_name summary_type : String) : Except String String :=
  if model_name ∉ AVAILABLE_MODELS then
    Except.error ("Unknown model \x27" ++ model_name
      ++ "\x27. Available: [\x27llama3.2\x27, \x27phi3\x27]")
  else
    let prompt_template := promptTemplateFor summary_type
    let prompt := prompt_template.replace "\x7btext\x7d" text
    match post prompt with
    | OllamaOutcome.response body =>
        let result := pyStrip body
        if result = "" then Except.error "Ollama returned an empty response."
        else Except.ok result
    | OllamaOutcome.connectionError =>
        Except.error "Cannot connect to Ollama. Make sure it is running: ollama serve"
    | OllamaOutcome.timeout =>
        Except.error "Ollama timed out. Try a smaller model like phi3."
    | OllamaOutcome.httpStatusError code =>
        Except.error ("HTTP error " ++ toString code ++ " from Ollama")

/-- `fastapi.HTTPException` as raised by the endpoints. -/
structure HTTPException where
  status_code : Nat
  detail : String
deriving DecidableEq

/-- `class SummarizeRequest(BaseModel)` of `backend.py` (the pydantic
defaults `"llama3.2"` / `"comprehensive"` are applied by the caller). -/
structure SummarizeRequest where
  text : String
  model_name : String
  summary_type : String
deriving DecidableEq

/-- The `POST /summarize` endpoint `submit_job` of `backend.py`:
validate, then delegate to `SummarizationQueue.submit`.  A raised
`HTTPException` aborts the handler before any mutation, so the state
component is returned unchanged on the error paths. -/
def submit_job (s : QState) (data : SummarizeRequest) :
    Except HTTPException Nat × QState :=
  if pyStrip data.text = "" then
    (Except.error ⟨400, "Text cannot be empty."⟩, s)
  else if data.model_name ∉ AVAILABLE_MODELS then
    (Except.error ⟨400, "Unknown model. Choose from: [\x27llama3.2\x27, \x27phi3\x27]"⟩, s)
  else if lookupStr data.summary_type PROMPTS = none then
    (Except.error ⟨400, "Unknown summary type. Choose from: [\x27comprehensive\x27, \x27executive\x27, \x27bullet_points\x27]"⟩, s)
  else
    let r := submit s data.text data.model_name data.summary_type
    (Except.ok r.1, r.2)

/-- The `GET /job/{job_id}` endpoint `get_job` of `backend.py`: poll a
job, 404 when unknown. -/
def get_job (s : QState) (job_id : Nat) : Except HTTPException JobDict :=
  match get_status s job_id with
  | none => Except.error ⟨404, "Job \x27" ++ toString job_id ++ "\x27 not found."⟩
  | some j => Except.ok j

/-! ## Lemmas about the store primitives -/

lemma lookupJob_append {id : Nat} {l l2 : List (Nat × Job)} {j : Job}
    (h : lookupJob id l = some j) : lookupJob id (l ++ l2) = some j := by
  induction l with
  | nil => simp [lookupJob] at h
  | cons p rest ih =>
      obtain ⟨k, j0⟩ := p
      by_cases hk : k = id
      · simpa [lookupJob, hk] using h
      · simp only [List.cons_append, lookupJob, if_neg hk] at h ⊢
        exact ih h

lemma lookupJob_append_none {id : Nat} {l : List (Nat × Job)} (l2 : List (Nat × Job))
    (h : lookupJob id l = none) : lookupJob id (l ++ l2) = lookupJob id l2 := by
  induction l with
  | nil => simp
  | cons p rest ih =>
      obtain ⟨k, j0⟩ := p
      by_cases hk : k = id
      · simp [lookupJob, hk] at h
      · simp only [List.cons_append, lookupJob, if_neg hk] at h ⊢
        exact ih h

lemma lookupJob_eq_none {id : Nat} {l : List (Nat × Job)}
    (h : id ∉ l.map Prod.fst) : lookupJob id l = none := by
  induction l with
  | nil => rfl
  | cons p rest ih =>
      obtain ⟨k, j0⟩ := p
      simp only [List.map_cons, List.mem_cons, not_or] at h
      simp only [lookupJob, if_neg (fun hh : k = id => h.1 hh.symm)]
      exact ih h.2

lemma lookupJob_mem {id : Nat} {l : List (Nat × Job)} {j : Job}
    (h : lookupJob id l = some j) : (id, j) ∈ l := by
  induction l with
  | nil => simp [lookupJob] at h
  | cons p rest ih =>
      obtain ⟨k, j0⟩ := p
      by_cases hk : k = id
      · subst hk
        have h2 : j0 = j := by simpa [lookupJob] using h
        subst h2
        exact List.mem_cons_self _ _
      · simp only [lookupJob, if_neg hk] at h
        exact List.mem_cons_of_mem _ (ih h)

lemma lookupJob_isSome_of_mem {id : Nat} {l : List (Nat × Job)}
    (h : id ∈ l.map Prod.fst) : ∃ j, lookupJob id l = some j := by
  induction l with
  | nil => simp at h
  | cons p rest ih =>
      obtain ⟨k, j0⟩ := p
      by_cases hk : k = id
      · exact ⟨j0, by simp [lookupJob, hk]⟩
      · simp only [List.map_cons, List.mem_cons] at h
        rcases h with h | h
        · exact absurd h.symm hk
        · simpa [lookupJob, if_neg hk] using ih h

lemma lookupJob_update_self (id : Nat) (f : Job → Job) (l : List (Nat × Job)) :
    lookupJob id (updateJob id f l) = (lookupJob id l).map f := by
  induction l with
  | nil => rfl
  | cons p rest ih =>
      obtain ⟨k, j0⟩ := p
      by_cases hk : k = id
      · simp [updateJob, lookupJob, hk]
      · simp [updateJob, lookupJob, hk, ih]

lemma lookupJob_update_ne {id k : Nat} (f : Job → Job) (l : List (Nat × Job)) (h : id ≠ k) :
    lookupJob id (updateJob k f l) = lookupJob id l := by
  induction l with
  | nil => rfl
  | cons p rest ih =>
      obtain ⟨k0, j0⟩ := p
      by_cases hk0 : k0 = k
      · have hne : ¬ (k0 = id) := fun hh => h (hh.symm.trans hk0)
        simp only [updateJob, if_pos hk0, lookupJob, if_neg hne]
        exact ih
      · by_cases hid : k0 = id
        · simp only [updateJob, if_neg hk0, lookupJob, if_pos hid]
        · simp only [updateJob, if_neg hk0, lookupJob, if_neg hid]
          exact ih

lemma map_fst_updateJob (k : Nat) (f : Job → Job) (l : List (Nat × Job)) :
    (updateJob k f l).map Prod.fst = l.map Prod.fst := by
  induction l with
  | nil => rfl
  | cons p rest ih =>
      obtain ⟨k0, j0⟩ := p
      by_cases hk0 : k0 = k <;> simp [updateJob, hk0, ih]

lemma mem_updateJob {p : Nat × Job} {k : Nat} {f : Job → Job} {l : List (Nat × Job)}
    (h : p ∈ updateJob k f l) :
    (p ∈ l ∧ p.1 ≠ k) ∨ ∃ q ∈ l, q.1 = k ∧ p = (k, f q.2) := by
  induction l with
  | nil => simp [updateJob] at h
  | cons hd rest ih =>
      obtain ⟨k0, j0⟩ := hd
      by_cases hk0 : k0 = k
      · simp only [updateJob, if_pos hk0, List.mem_cons] at h
        rcases h with h | h
        · exact Or.inr ⟨(k0, j0), List.mem_cons_self _ _, hk0, by rw [h, hk0]⟩
        · rcases ih h with ⟨h1, h2⟩ | ⟨q, hq, hqk, hpe⟩
          · exact Or.inl ⟨List.mem_cons_of_mem _ h1, h2⟩
          · exact Or.inr ⟨q, List.mem_cons_of_mem _ hq, hqk, hpe⟩
      · simp only [updateJob, if_neg hk0, List.mem_cons] at h
        rcases h with h | h
        · subst h; exact Or.inl ⟨List.mem_cons_self _ _, hk0⟩
        · rcases ih h with ⟨h1, h2⟩ | ⟨q, hq, hqk, hpe⟩
          · exact Or.inl ⟨List.mem_cons_of_mem _ h1, h2⟩
          · exact Or.inr ⟨q, List.mem_cons_of_mem _ hq, hqk, hpe⟩

lemma lookup_of_mem_nodup {l : List (Nat × Job)} (hnd : (l.map Prod.fst).Nodup)
    {k : Nat} {a : Job} (h : (k, a) ∈ l) : lookupJob k l = some a := by
  induction l with
  | nil => simp at h
  | cons hd rest ih =>
      obtain ⟨k0, j0⟩ := hd
      simp only [List.map_cons, List.nodup_cons] at hnd
      rcases List.mem_cons.mp h with h | h
      · obtain ⟨h1, h2⟩ := Prod.mk.injEq k a k0 j0 |>.mp h
        subst h1; subst h2
        simp [lookupJob]
      · have hk : k ∈ rest.map Prod.fst := List.mem_map.mpr ⟨(k, a), h, rfl⟩
        have hne : ¬ (k0 = k) := fun hh => hnd.1 (hh ▸ hk)
        simp only [lookupJob, if_neg hne]
        exact ih hnd.2 h

lemma chain'_append_singleton {q : List Nat} {n : Nat}
    (hq : q.Chain' (· < ·)) (hlt : ∀ x ∈ q, x < n) :
    (q ++ [n]).Chain' (· < ·) := by
  rw [List.chain'_append]
  refine ⟨hq, List.chain'_singleton n, ?_⟩
  intro x hx y hy
  have hxq : x ∈ q := by
    rcases List.mem_getLast?_eq_getLast hx with ⟨hne, hxl⟩
    rw [hxl]; exact List.getLast_mem hne
  have hyn : n = y := by simpa using hy
  rw [← hyn]; exact hlt x hxq

lemma chain'_cons_lt {a : Nat} {rest : List Nat}
    (h : (a :: rest).Chain' (· < ·)) : ∀ b ∈ rest, a < b := by
  have hp : (a :: rest).Pairwise (· < ·) := List.chain'_iff_pairwise.mp h
  exact (List.pairwise_cons.mp hp).1

lemma chain'_cons_not_mem {a : Nat} {rest : List Nat}
    (h : (a :: rest).Chain' (· < ·)) : a ∉ rest :=
  fun hmem => lt_irrefl a (chain'_cons_lt h a hmem)

/-! ## The inductive invariant -/

/-- Per-job consistency of the result fields with the status: both
result fields absent before a terminal state, `summary` exactly on
`COMPLETED`, `error` exactly on `FAILED`, timing fields exactly on
terminal states. -/
def FieldsOk (j : Job) : Prop :=
  ((j.status = JobStatus.queued ∨ j.status = JobStatus.processing) →
      j.summary = none ∧ j.error = none ∧ j.time_taken = none ∧ j.completed_at = none)
  ∧ (j.status = JobStatus.completed →
      (∃ r, j.summary = some r) ∧ j.error = none
        ∧ (∃ t, j.time_taken = some t) ∧ (∃ c, j.completed_at = some c))
  ∧ (j.status = JobStatus.failed →
      j.summary = none ∧ (∃ m, j.error = some m)
        ∧ (∃ t, j.time_taken = some t) ∧ (∃ c, j.completed_at = some c))

/-- The inductive invariant of the queue system, preserved by every
atomic step. -/
structure SysInv (s : QState) : Prop where
  keys_nodup : (s.jobs.map Prod.fst).Nodup
  keys_lt : ∀ p ∈ s.jobs, p.1 < s.nextId
  id_matches : ∀ p ∈ s.jobs, p.2.job_id = p.1
  queue_queued : ∀ id ∈ s.queue,
      ∃ j, lookupJob id s.jobs = some j ∧ j.status = JobStatus.queued
  queue_chain : s.queue.Chain' (· < ·)
  busy_processing : ∀ bid start, s.phase = WorkerPhase.busy bid start →
      ∃ j, lookupJob bid s.jobs = some j ∧ j.status = JobStatus.processing
  processing_busy : ∀ p ∈ s.jobs, p.2.status = JobStatus.processing →
      ∃ start, s.phase = WorkerPhase.busy p.1 start
  busy_not_queued : ∀ bid start, s.phase = WorkerPhase.busy bid start → bid ∉ s.queue
  fields_ok : ∀ p ∈ s.jobs, FieldsOk p.2

lemma inv_init : SysInv initState := by
  refine ⟨?_, ?_, ?_, ?_, ?_, ?_, ?_, ?_, ?_⟩ <;> simp [initState]

lemma inv_submit (s : QState) (t m ty : String) (hs : SysInv s) :
    SysInv (submit s t m ty).2 := by
  obtain ⟨hnd, hlt, hidm, hqq, hqc, hbp, hpb, hbq, hfo⟩ := hs
  have hnotin : s.nextId ∉ s.jobs.map Prod.fst := by
    intro hmem
    rcases List.mem_map.mp hmem with ⟨p, hp, hpe⟩
    exact absurd (hpe ▸ hlt p hp) (lt_irrefl _)
  have hqlt : ∀ x ∈ s.queue, x < s.nextId := by
    intro x hx
    rcases hqq x hx with ⟨j, hj, _⟩
    exact hlt (x, j) (lookupJob_mem hj)
  have hlooknew :
      lookupJob s.nextId (s.jobs ++ [(s.nextId, mkJob s.nextId t m ty s.clock)])
        = some (mkJob s.nextId t m ty s.clock) := by
    rw [lookupJob_append_none _ (lookupJob_eq_none hnotin)]
    simp [lookupJob]
  refine ⟨?_, ?_, ?_, ?_, ?_, ?_, ?_, ?_, ?_⟩
  · -- keys_nodup
    simp only [submit, List.map_append, List.map_cons, List.map_nil]
    rw [List.nodup_append]
    exact ⟨hnd, List.nodup_singleton _, by simpa using hnotin⟩
  · -- keys_lt
    intro p hp
    rcases List.mem_append.mp hp with hp | hp
    · exact Nat.lt_succ_of_lt (hlt p hp)
    · have : p = (s.nextId, mkJob s.nextId t m ty s.clock) := by simpa using hp
      rw [this]; exact Nat.lt_succ_self _
  · -- id_matches
    intro p hp
    rcases List.mem_append.mp hp with hp | hp
    · exact hidm p hp
    · have : p = (s.nextId, mkJob s.nextId t m ty s.clock) := by simpa using hp
      rw [this]; rfl
  · -- queue_queued
    intro id hid
    rcases List.mem_append.mp hid with hid | hid
    · rcases hqq id hid with ⟨j, hj, hjs⟩
      exact ⟨j, lookupJob_append hj, hjs⟩
    · have hide : id = s.nextId := by simpa using hid
      rw [hide]
      exact ⟨mkJob s.nextId t m ty s.clock, hlooknew, rfl⟩
  · -- queue_chain
    exact chain'_append_singleton hqc hqlt
  · -- busy_processing
    intro bid start heq
    rcases hbp bid start heq with ⟨j, hj, hjs⟩
    exact ⟨j, lookupJob_append hj, hjs⟩
  · -- processing_busy
    intro p hp hps
    rcases List.mem_append.mp hp with hp | hp
    · exact hpb p hp hps
    · have : p = (s.nextId, mkJob s.nextId t m ty s.clock) := by simpa using hp
      rw [this] at hps
      exact absurd hps (by simp [mkJob])
  · -- busy_not_queued
    intro bid start heq hmem
    rcases List.mem_append.mp hmem with hmem | hmem
    · exact hbq bid start heq hmem
    · have hbidn : bid = s.nextId := by simpa using hmem
      rcases hbp bid start heq with ⟨j, hj, _⟩
      have := hlt (bid, j) (lookupJob_mem hj)
      rw [hbidn] at this
      exact lt_irrefl _ this
  · -- fields_ok
    intro p hp
    rcases List.mem_append.mp hp with hp | hp
    · exact hfo p hp
    · have : p = (s.nextId, mkJob s.nextId t m ty s.clock) := by simpa using hp
      rw [this]
      refine ⟨fun _ => ⟨rfl, rfl, rfl, rfl⟩, fun hc => ?_, fun hc => ?_⟩ <;>
        exact absurd hc (by simp [mkJob])

lemma finishJob_job_id (o : Except String String) (st n : Nat) (j : Job) :
    (finishJob o st n j).job_id = j.job_id := by cases o <;> rfl

lemma finishJob_terminal (o : Except String String) (st n : Nat) (j : Job) :
    (finishJob o st n j).status = JobStatus.completed ∨
      (finishJob o st n j).status = JobStatus.failed := by
  cases o <;> simp [finishJob]

lemma fieldsOk_finishJob {j : Job} (o : Except String String) (st n : Nat)
    (h1 : j.summary = none) (h2 : j.error = none) :
    FieldsOk (finishJob o st n j) := by
  cases o with
  | ok r =>
      refine ⟨fun hc => ?_, fun _ => ⟨⟨r, rfl⟩, h2, ⟨n - st, rfl⟩, ⟨n, rfl⟩⟩,
        fun hc => ?_⟩
      · rcases hc with hc | hc <;> simp [finishJob] at hc
      · simp [finishJob] at hc
  | error msg =>
      refine ⟨fun hc => ?_, fun hc => ?_,
        fun _ => ⟨h1, ⟨msg, rfl⟩, ⟨n - st, rfl⟩, ⟨n, rfl⟩⟩⟩
      · rcases hc with hc | hc <;> simp [finishJob] at hc
      · simp [finishJob] at hc

lemma inv_dequeue (s : QState) (hs : SysInv s) : SysInv (step s Event.dequeue) := by
  obtain ⟨jobs, queue, nid, clk, phase⟩ := s
  obtain ⟨hnd, hlt, hidm, hqq, hqc, hbp, hpb, hbq, hfo⟩ := hs
  dsimp only at hnd hlt hidm hqq hqc hbp hpb hbq hfo
  cases phase with
  | busy b st => exact ⟨hnd, hlt, hidm, hqq, hqc, hbp, hpb, hbq, hfo⟩
  | idle =>
      cases queue with
      | nil => exact ⟨hnd, hlt, hidm, hqq, hqc, hbp, hpb, hbq, hfo⟩
      | cons q0 rest =>
          have hhne : ∀ b ∈ rest, q0 ≠ b :=
            fun b hb => Nat.ne_of_lt (chain'_cons_lt hqc b hb)
          obtain ⟨jh, hjh, hjhq⟩ := hqq q0 (List.mem_cons_self _ _)
          show SysInv
            ⟨updateJob q0 (fun j => { j with status := JobStatus.processing }) jobs,
              rest, nid, clk + 1, WorkerPhase.busy q0 clk⟩
          refine ⟨?_, ?_, ?_, ?_, ?_, ?_, ?_, ?_, ?_⟩ <;> dsimp only
          · rw [map_fst_updateJob]; exact hnd
          · intro p hp
            rcases mem_updateJob hp with ⟨hmem, _⟩ | ⟨q, hq, hqk, hpe⟩
            · exact hlt p hmem
            · rw [hpe]; exact hqk ▸ hlt q hq
          · intro p hp
            rcases mem_updateJob hp with ⟨hmem, _⟩ | ⟨q, hq, hqk, hpe⟩
            · exact hidm p hmem
            · rw [hpe]; exact hqk ▸ hidm q hq
          · intro i hi
            have hne : i ≠ q0 := fun hh => hhne i hi hh.symm
            obtain ⟨j, hj, hjs⟩ := hqq i (List.mem_cons_of_mem _ hi)
            exact ⟨j, by rw [lookupJob_update_ne _ _ hne]; exact hj, hjs⟩
          · exact hqc.tail
          · intro bid start heq
            cases heq
            refine ⟨{ jh with status := JobStatus.processing }, ?_, rfl⟩
            rw [lookupJob_update_self, hjh]; rfl
          · intro p hp hps
            rcases mem_updateJob hp with ⟨hmem, _⟩ | ⟨q, hq, hqk, hpe⟩
            · obtain ⟨st, hcontra⟩ := hpb p hmem hps
              exact WorkerPhase.noConfusion hcontra
            · exact ⟨clk, by rw [hpe]⟩
          · intro bid start heq hmem
            cases heq
            exact chain'_cons_not_mem hqc hmem
          · intro p hp
            rcases mem_updateJob hp with ⟨hmem, _⟩ | ⟨⟨qk, qj⟩, hq, hqk, hpe⟩
            · exact hfo p hmem
            · dsimp only at hqk hpe
              have hlk := lookup_of_mem_nodup hnd hq
              rw [hqk, hjh] at hlk
              obtain rfl : jh = qj := Option.some.inj hlk
              have hnone := (hfo (qk, jh) hq).1 (Or.inl hjhq)
              rw [hpe]
              refine ⟨fun _ => ⟨hnone.1, hnone.2.1, hnone.2.2.1, hnone.2.2.2⟩,
                fun hc => ?_, fun hc => ?_⟩ <;> exact absurd hc (by simp)

lemma inv_finish (s : QState) (o : Except String String) (hs : SysInv s) :
    SysInv (step s (Event.finish o)) := by
  obtain ⟨jobs, queue, nid, clk, phase⟩ := s
  obtain ⟨hnd, hlt, hidm, hqq, hqc, hbp, hpb, hbq, hfo⟩ := hs
  dsimp only at hnd hlt hidm hqq hqc hbp hpb hbq hfo
  cases phase with
  | idle => exact ⟨hnd, hlt, hidm, hqq, hqc, hbp, hpb, hbq, hfo⟩
  | busy bid st =>
      obtain ⟨jb, hjb, hjbp⟩ := hbp bid st rfl
      have hbnotq : bid ∉ queue := hbq bid st rfl
      show SysInv
        ⟨updateJob bid (finishJob o st clk) jobs,
          queue, nid, clk + 1, WorkerPhase.idle⟩
      refine ⟨?_, ?_, ?_, ?_, ?_, ?_, ?_, ?_, ?_⟩ <;> dsimp only
      · rw [map_fst_updateJob]; exact hnd
      · intro p hp
        rcases mem_updateJob hp with ⟨hmem, _⟩ | ⟨q, hq, hqk, hpe⟩
        · exact hlt p hmem
        · rw [hpe]; exact hqk ▸ hlt q hq
      · intro p hp
        rcases mem_updateJob hp with ⟨hmem, _⟩ | ⟨q, hq, hqk, hpe⟩
        · exact hidm p hmem
        · rw [hpe]
          show (finishJob o st clk q.2).job_id = bid
          rw [finishJob_job_id]
          exact hqk ▸ hidm q hq
      · intro i hi
        have hne : i ≠ bid := fun hh => hbnotq (hh ▸ hi)
        obtain ⟨j, hj, hjs⟩ := hqq i hi
        exact ⟨j, by rw [lookupJob_update_ne _ _ hne]; exact hj, hjs⟩
      · exact hqc
      · intro b2 s2 heq
        exact WorkerPhase.noConfusion heq
      · intro p hp hps
        rcases mem_updateJob hp with ⟨hmem, hne⟩ | ⟨q, hq, hqk, hpe⟩
        · obtain ⟨st2, heq⟩ := hpb p hmem hps
          injection heq with h1 h2
          exact absurd h1.symm hne
        · rw [hpe] at hps
          rcases finishJob_terminal o st clk q.2 with hT | hT <;>
            · rw [show ((bid, finishJob o st clk q.2) : Nat × Job).2.status
                  = (finishJob o st clk q.2).status from rfl, hT] at hps
              exact JobStatus.noConfusion hps
      · intro b2 s2 heq
        exact WorkerPhase.noConfusion heq
      · intro p hp
        rcases mem_updateJob hp with ⟨hmem, _⟩ | ⟨⟨qk, qj⟩, hq, hqk, hpe⟩
        · exact hfo p hmem
        · dsimp only at hqk hpe
          have hlk := lookup_of_mem_nodup hnd hq
          rw [hqk, hjb] at hlk
          obtain rfl : jb = qj := Option.some.inj hlk
          have hnone := (hfo (qk, jb) hq).1 (Or.inr hjbp)
          rw [hpe]
          exact fieldsOk_finishJob o st clk hnone.1 hnone.2.1

lemma inv_step (s : QState) (e : Event) (hs : SysInv s) : SysInv (step s e) := by
  cases e with
  | submit t m ty => exact inv_submit s t m ty hs
  | dequeue => exact inv_dequeue s hs
  | finish o => exact inv_finish s o hs

lemma reachable_inv {s : QState} (h : Reachable s) : SysInv s := by
  induction h with
  | init => exact inv_init
  | step s e _ ih => exact inv_step s e ih

/-! ## Step characterizations and per-job change analysis -/

lemma step_dequeue_eq {s : QState} {q0 : Nat} {rest : List Nat}
    (hp : s.phase = WorkerPhase.idle) (hq : s.queue = q0 :: rest) :
    step s Event.dequeue =
      { s with
          jobs := updateJob q0 (fun j => { j with status := JobStatus.processing }) s.jobs
          queue := rest
          phase := WorkerPhase.busy q0 s.clock
          clock := s.clock + 1 } := by
  obtain ⟨jobs, queue, nid, clk, phase⟩ := s
  dsimp only at hp hq
  subst hp; subst hq
  rfl

lemma step_dequeue_busy {s : QState} {b st : Nat}
    (hp : s.phase = WorkerPhase.busy b st) : step s Event.dequeue = s := by
  obtain ⟨jobs, queue, nid, clk, phase⟩ := s
  dsimp only at hp
  subst hp
  cases queue <;> rfl

lemma step_dequeue_nil {s : QState} (hq : s.queue = []) :
    step s Event.dequeue = s := by
  obtain ⟨jobs, queue, nid, clk, phase⟩ := s
  dsimp only at hq
  subst hq
  cases phase <;> rfl

lemma step_finish_eq {s : QState} {bid st : Nat}
    (hp : s.phase = WorkerPhase.busy bid st) (o : Except String String) :
    step s (Event.finish o) =
      { s with
          jobs := updateJob bid (finishJob o st s.clock) s.jobs
          phase := WorkerPhase.idle
          clock := s.clock + 1 } := by
  obtain ⟨jobs, queue, nid, clk, phase⟩ := s
  dsimp only at hp
  subst hp
  rfl

lemma step_finish_idle {s : QState} (hp : s.phase = WorkerPhase.idle)
    (o : Except String String) : step s (Event.finish o) = s := by
  obtain ⟨jobs, queue, nid, clk, phase⟩ := s
  dsimp only at hp
  subst hp
  rfl

lemma lookup_persists {s : QState} (e : Event) {i : Nat} {j : Job}
    (h1 : lookupJob i s.jobs = some j) :
    ∃ j', lookupJob i (step s e).jobs = some j' := by
  cases e with
  | submit t m ty => exact ⟨j, lookupJob_append h1⟩
  | dequeue =>
      cases hph : s.phase with
      | busy b st => rw [step_dequeue_busy hph]; exact ⟨j, h1⟩
      | idle =>
          cases hq : s.queue with
          | nil => rw [step_dequeue_nil hq]; exact ⟨j, h1⟩
          | cons q0 rest =>
              rw [step_dequeue_eq hph hq]
              dsimp only
              by_cases hi : i = q0
              · subst hi
                rw [lookupJob_update_self, h1]
                exact ⟨_, rfl⟩
              · rw [lookupJob_update_ne _ _ hi]
                exact ⟨j, h1⟩
  | finish o =>
      cases hph : s.phase with
      | idle => rw [step_finish_idle hph o]; exact ⟨j, h1⟩
      | busy bid st =>
          rw [step_finish_eq hph o]
          dsimp only
          by_cases hi : i = bid
          · subst hi
            rw [lookupJob_update_self, h1]
            exact ⟨_, rfl⟩
          · rw [lookupJob_update_ne _ _ hi]
            exact ⟨j, h1⟩

lemma step_job_change {s : QState} (hs : SysInv s) (e : Event) {i : Nat} {j j' : Job}
    (h1 : lookupJob i s.jobs = some j)
    (h2 : lookupJob i (step s e).jobs = some j') :
    j' = j
    ∨ (j.status = JobStatus.queued ∧ j' = { j with status := JobStatus.processing })
    ∨ (j.status = JobStatus.processing ∧ ∃ o st, j' = finishJob o st s.clock j) := by
  obtain ⟨hnd, hlt, hidm, hqq, hqc, hbp, hpb, hbq, hfo⟩ := hs
  cases e with
  | submit t m ty =>
      left
      have hap : lookupJob i
          (s.jobs ++ [(s.nextId, mkJob s.nextId t m ty s.clock)]) = some j :=
        lookupJob_append h1
      rw [show (step s (Event.submit t m ty)).jobs
        = s.jobs ++ [(s.nextId, mkJob s.nextId t m ty s.clock)] from rfl] at h2
      rw [hap] at h2
      exact (Option.some.inj h2).symm
  | dequeue =>
      cases hph : s.phase with
      | busy b st =>
          rw [step_dequeue_busy hph] at h2
          left; rw [h1] at h2; exact (Option.some.inj h2).symm
      | idle =>
          cases hq : s.queue with
          | nil =>
              rw [step_dequeue_nil hq] at h2
              left; rw [h1] at h2; exact (Option.some.inj h2).symm
          | cons q0 rest =>
              rw [step_dequeue_eq hph hq] at h2
              dsimp only at h2
              by_cases hi : i = q0
              · subst hi
                rw [lookupJob_update_self, h1] at h2
                obtain ⟨jh, hjh, hjhq⟩ := hqq i (hq.symm ▸ List.mem_cons_self i rest)
                have hjq : j.status = JobStatus.queued := by
                  rw [h1] at hjh
                  rw [Option.some.inj hjh]
                  exact hjhq
                refine Or.inr (Or.inl ⟨hjq, ?_⟩)
                simp only [Option.map_some'] at h2
                exact (Option.some.inj h2).symm
              · rw [lookupJob_update_ne _ _ hi, h1] at h2
                left; exact (Option.some.inj h2).symm
  | finish o =>
      cases hph : s.phase with
      | idle =>
          rw [step_finish_idle hph o] at h2
          left; rw [h1] at h2; exact (Option.some.inj h2).symm
      | busy bid st =>
          rw [step_finish_eq hph o] at h2
          dsimp only at h2
          by_cases hi : i = bid
          · subst hi
            rw [lookupJob_update_self, h1] at h2
            obtain ⟨jb, hjb, hjbp⟩ := hbp i st hph
            have hjp : j.status = JobStatus.processing := by
              rw [h1] at hjb
              rw [Option.some.inj hjb]
              exact hjbp
            refine Or.inr (Or.inr ⟨hjp, o, st, ?_⟩)
            simp only [Option.map_some'] at h2
            exact (Option.some.inj h2).symm
          · rw [lookupJob_update_ne _ _ hi, h1] at h2
            left; exact (Option.some.inj h2).symm

lemma terminal_persist {s : QState} (hs : SysInv s) (e : Event) {i : Nat} {j : Job}
    (h1 : lookupJob i s.jobs = some j)
    (hterm : j.status = JobStatus.completed ∨ j.status = JobStatus.failed) :
    lookupJob i (step s e).jobs = some j := by
  obtain ⟨j', h2⟩ := lookup_persists e h1
  rcases step_job_change hs e h1 h2 with rfl | ⟨hjq, _⟩ | ⟨hjp, _⟩
  · exact h2
  · rcases hterm with ht | ht <;> rw [hjq] at ht <;> exact JobStatus.noConfusion ht
  · rcases hterm with ht | ht <;> rw [hjp] at ht <;> exact JobStatus.noConfusion ht

/-! ## The worker loop drained to exhaustion -/

/-- Successive iterations of the worker loop from an idle worker: one
`dequeue`/`finish` pair per outcome in `os` (the successive executor
results). -/
def drainRun (s : QState) : List (Except String String) → QState
  | [] => s
  | o :: os => drainRun (step (step s Event.dequeue) (Event.finish o)) os

lemma sysInv_drainRun (os : List (Except String String)) {s : QState}
    (hs : SysInv s) : SysInv (drainRun s os) := by
  induction os generalizing s with
  | nil => exact hs
  | cons o os ih => exact ih (inv_step _ _ (inv_step _ _ hs))

lemma terminal_persist_drain (os : List (Except String String)) {s : QState}
    (hs : SysInv s) {i : Nat} {j : Job}
    (h1 : lookupJob i s.jobs = some j)
    (hterm : j.status = JobStatus.completed ∨ j.status = JobStatus.failed) :
    lookupJob i (drainRun s os).jobs = some j := by
  induction os generalizing s with
  | nil => exact h1
  | cons o os ih =>
      have h2 := terminal_persist hs Event.dequeue h1 hterm
      have hinv1 := inv_step s Event.dequeue hs
      have h3 := terminal_persist hinv1 (Event.finish o) h2 hterm
      exact ih (inv_step _ _ hinv1) h3

lemma drain_processes_all (os : List (Except String String)) (s : QState)
    (hs : SysInv s) (hidle : s.phase = WorkerPhase.idle)
    (hlen : os.length = s.queue.length) :
    (drainRun s os).queue = [] ∧
    ∀ i ∈ s.queue, ∃ j, lookupJob i (drainRun s os).jobs = some j ∧
      (j.status = JobStatus.completed ∨ j.status = JobStatus.failed) := by
  induction os generalizing s with
  | nil =>
      have hq : s.queue = [] := List.length_eq_zero.mp (by simpa using hlen.symm)
      refine ⟨hq, ?_⟩
      intro i hi
      rw [hq] at hi
      cases hi
  | cons o os ih =>
      cases hq : s.queue with
      | nil => rw [hq] at hlen; simp at hlen
      | cons q0 rest =>
          have hde := step_dequeue_eq hidle hq
          have hinv1 : SysInv (step s Event.dequeue) := inv_step s _ hs
          have hph1 : (step s Event.dequeue).phase = WorkerPhase.busy q0 s.clock := by
            rw [hde]
          have hfe := step_finish_eq hph1 o
          have hinv2 : SysInv (step (step s Event.dequeue) (Event.finish o)) :=
            inv_step _ _ hinv1
          have hidle2 : (step (step s Event.dequeue) (Event.finish o)).phase
              = WorkerPhase.idle := by rw [hfe]
          have hq2 : (step (step s Event.dequeue) (Event.finish o)).queue = rest := by
            rw [hfe, hde]
          have hlen2 : os.length
              = (step (step s Event.dequeue) (Event.finish o)).queue.length := by
            rw [hq2]
            have h3 : (o :: os).length = (q0 :: rest).length := by
              rw [← hq]; exact hlen
            simpa using h3
          obtain ⟨hqnil, hall⟩ := ih _ hinv2 hidle2 hlen2
          refine ⟨hqnil, ?_⟩
          intro i hi
          rcases List.mem_cons.mp hi with rfl | hi2
          · have hmemq : i ∈ s.queue := by
              rw [hq]; exact List.mem_cons_self i rest
            obtain ⟨jq, hjq, _⟩ := hs.queue_queued i hmemq
            have hl1 : lookupJob i (step s Event.dequeue).jobs
                = some { jq with status := JobStatus.processing } := by
              rw [hde]
              dsimp only
              rw [lookupJob_update_self, hjq]
              rfl
            have hl2 : lookupJob i (step (step s Event.dequeue) (Event.finish o)).jobs
                = some (finishJob o s.clock (step s Event.dequeue).clock
                    { jq with status := JobStatus.processing }) := by
              rw [hfe]
              dsimp only
              rw [lookupJob_update_self, hl1]
              rfl
            have hterm := finishJob_terminal o s.clock (step s Event.dequeue).clock
                { jq with status := JobStatus.processing }
            exact ⟨_, terminal_persist_drain os hinv2 hl2 hterm, hterm⟩
          · refine hall i ?_
            rw [hq2]
            exact hi2

/-! ## Counting lemmas -/

/-- Forward order on the job lifecycle: `QUEUED` before `PROCESSING`
before the two terminal states. -/
def statusRank : JobStatus → Nat
  | JobStatus.queued => 0
  | JobStatus.processing => 1
  | JobStatus.completed => 2
  | JobStatus.failed => 2

lemma status_count_sum (l : List JobStatus) :
    l.length = l.count JobStatus.queued + l.count JobStatus.processing
      + l.count JobStatus.completed + l.count JobStatus.failed := by
  induction l with
  | nil => rfl
  | cons h t ih => cases h <;> simp [List.count_cons, beq_iff_eq, ih] <;> omega

lemma count_processing_le_one {l : List (Nat × Job)} {c : Nat}
    (hnd : (l.map Prod.fst).Nodup)
    (hall : ∀ p ∈ l, p.2.status = JobStatus.processing → p.1 = c) :
    (l.map (fun p => p.2.status)).count JobStatus.processing ≤ 1 := by
  induction l with
  | nil => simp
  | cons hd rest ih =>
      simp only [List.map_cons, List.nodup_cons] at hnd
      by_cases hs : hd.2.status = JobStatus.processing
      · have hrest0 :
            (rest.map (fun p => p.2.status)).count JobStatus.processing = 0 := by
          rw [List.count_eq_zero]
          intro hmem
          obtain ⟨p, hp, hps⟩ := List.mem_map.mp hmem
          have h1 : p.1 = c := hall p (List.mem_cons_of_mem _ hp) hps
          have h2 : hd.1 = c := hall hd (List.mem_cons_self _ _) hs
          have hmem2 : hd.1 ∈ rest.map Prod.fst := by
            rw [h2, ← h1]
            exact List.mem_map.mpr ⟨p, hp, rfl⟩
          exact hnd.1 hmem2
        simp [List.count_cons, beq_iff_eq, hs, hrest0]
      · have hrec := ih hnd.2 (fun p hp hps => hall p (List.mem_cons_of_mem _ hp) hps)
        simpa [List.count_cons, beq_iff_eq, hs] using hrec

/-! ## Concrete observation helpers and the three-job scenario -/

/-- The `completed_at` field of the stored job `i` (observation
helper). -/
def completedAtOf (i : Nat) (s : QState) : Option Nat :=
  match lookupJob i s.jobs with
  | some j => j.completed_at
  | none => none

/-- The status of the stored job `i` (observation helper). -/
def statusOf (i : Nat) (s : QState) : Option JobStatus :=
  (lookupJob i s.jobs).map Job.status

/-- The FIFO scenario of the spec: submit A, B, C in that order, then
let the worker drain the queue with three successful backend calls. -/
def scenarioABC : QState :=
  drainRun
    (step (step (step initState (Event.submit "A" "llama3.2" "comprehensive"))
        (Event.submit "B" "llama3.2" "comprehensive"))
      (Event.submit "C" "llama3.2" "comprehensive"))
    [Except.ok "sa", Except.ok "sb", Except.ok "sc"]

/-! ## The claimed properties -/

/-- C6: at every observation point the dictionary returned by
`get_stats` satisfies `total = queued + processing + completed +
failed`, where `total` counts the stored jobs and the four addends
count the stored jobs per status. -/
theorem stats_total_eq_sum (s : QState) :
    (get_stats s).total = (get_stats s).queued + (get_stats s).processing
      + (get_stats s).completed + (get_stats s).failed := by
  have h := status_count_sum (s.jobs.map (fun p => p.2.status))
  simpa [get_stats] using h

/-- C2: in every reachable state of the system, at most one stored job
has status `PROCESSING` (single-worker serialization). -/
theorem at_most_one_processing (s : QState) (hr : Reachable s) :
    (get_stats s).processing ≤ 1 := by
  have hinv := reachable_inv hr
  cases hph : s.phase with
  | idle =>
      have h0 : (s.jobs.map (fun p => p.2.status)).count JobStatus.processing
          = 0 := by
        rw [List.count_eq_zero]
        intro hmem
        obtain ⟨p, hp, hps⟩ := List.mem_map.mp hmem
        obtain ⟨st, hcontra⟩ := hinv.processing_busy p hp hps
        rw [hph] at hcontra
        exact WorkerPhase.noConfusion hcontra
      simp [get_stats, h0]
  | busy bid st =>
      have hall : ∀ p ∈ s.jobs, p.2.status = JobStatus.processing → p.1 = bid := by
        intro p hp hps
        obtain ⟨st2, heq⟩ := hinv.processing_busy p hp hps
        rw [hph] at heq
        injection heq with h1 h2
        exact h1.symm
      have hle := count_processing_le_one hinv.keys_nodup hall
      simpa [get_stats] using hle

/-- Witness for C2 at a concrete reachable state with one job
mid-flight. -/
theorem at_most_one_processing_witness :
    (get_stats (step (step initState
        (Event.submit "doc" "llama3.2" "comprehensive")) Event.dequeue)).processing
      ≤ 1 :=
  at_most_one_processing _
    (Reachable.step _ Event.dequeue
      (Reachable.step _ (Event.submit "doc" "llama3.2" "comprehensive")
        Reachable.init))

/-- C9: an unknown identifier yields the distinct not-found signal
(`None` from `get_status`, HTTP 404 from `get_job`), never an
empty/default job view; a stored identifier yields the job's full
`to_dict` projection. -/
theorem get_status_unknown_not_found (s : QState) (i : Nat) :
    (lookupJob i s.jobs = none →
      get_status s i = none
        ∧ get_job s i = Except.error
            ⟨404, "Job \x27" ++ toString i ++ "\x27 not found."⟩)
    ∧ (∀ j, lookupJob i s.jobs = some j →
      get_status s i = some j.to_dict ∧ get_job s i = Except.ok j.to_dict) := by
  constructor
  · intro h
    have hgs : get_status s i = none := by simp [get_status, h]
    exact ⟨hgs, by simp [get_job, hgs]⟩
  · intro j h
    have hgs : get_status s i = some j.to_dict := by simp [get_status, h]
    exact ⟨hgs, by simp [get_job, hgs]⟩

/-- Witness for C9: not-found on the empty store, full projection for a
freshly submitted job. -/
theorem get_status_unknown_not_found_witness :
    (get_status initState 0 = none
      ∧ get_job initState 0 = Except.error
          ⟨404, "Job \x27" ++ toString 0 ++ "\x27 not found."⟩)
    ∧ (get_status (submit initState "d" "llama3.2" "comprehensive").2 0
        = some (mkJob 0 "d" "llama3.2" "comprehensive" 0).to_dict
      ∧ get_job (submit initState "d" "llama3.2" "comprehensive").2 0
        = Except.ok (mkJob 0 "d" "llama3.2" "comprehensive" 0).to_dict) :=
  ⟨(get_status_unknown_not_found initState 0).1 rfl,
   (get_status_unknown_not_found (submit initState "d" "llama3.2" "comprehensive").2
      0).2 (mkJob 0 "d" "llama3.2" "comprehensive" 0) rfl⟩

/-- C10: `summarize` called with a known model and a summary type
outside `PROMPTS` does not fail on the unknown type: the template
lookup silently falls back to the `"comprehensive"` template and the
call proceeds exactly like the `"comprehensive"` call. -/
theorem summarize_unknown_type_fallback (post : String → OllamaOutcome)
    (text model_name summary_type : String)
    (hm : model_name ∈ AVAILABLE_MODELS)
    (ht : lookupStr summary_type PROMPTS = none) :
    promptTemplateFor summary_type = comprehensivePrompt
      ∧ summarize post text model_name summary_type
        = summarize post text model_name "comprehensive" := by
  have htf : promptTemplateFor summary_type = comprehensivePrompt := by
    unfold promptTemplateFor
    rw [ht]
  have hc : promptTemplateFor "comprehensive" = comprehensivePrompt := rfl
  refine ⟨htf, ?_⟩
  have hmm : ¬ (model_name ∉ AVAILABLE_MODELS) := fun hn => hn hm
  simp only [summarize, if_neg hmm]
  rw [htf, hc]

/-- Witness for C10 at an unknown summary type and an echoing
backend. -/
theorem summarize_unknown_type_fallback_witness :
    promptTemplateFor "detailed" = comprehensivePrompt
      ∧ summarize (fun p => OllamaOutcome.response p) "doc" "phi3" "detailed"
        = summarize (fun p => OllamaOutcome.response p) "doc" "phi3" "comprehensive" :=
  summarize_unknown_type_fallback (fun p => OllamaOutcome.response p)
    "doc" "phi3" "detailed" (by decide) (by decide)

/-- C8: a submission with whitespace-only text, an unknown model, or an
unknown summary type is rejected synchronously with HTTP 400 and the
state is returned unchanged: no job is created, stored or enqueued. -/
theorem submit_job_validation_rejects (s : QState) (data : SummarizeRequest)
    (h : pyStrip data.text = ""
      ∨ data.model_name ∉ AVAILABLE_MODELS
      ∨ lookupStr data.summary_type PROMPTS = none) :
    (∃ e, (submit_job s data).1 = Except.error e ∧ e.status_code = 400)
      ∧ (submit_job s data).2 = s := by
  by_cases h1 : pyStrip data.text = ""
  · have he : submit_job s data
        = (Except.error ⟨400, "Text cannot be empty."⟩, s) := by
      simp [submit_job, h1]
    rw [he]
    exact ⟨⟨⟨400, "Text cannot be empty."⟩, rfl, rfl⟩, rfl⟩
  · by_cases h2 : data.model_name ∈ AVAILABLE_MODELS
    · by_cases h3 : lookupStr data.summary_type PROMPTS = none
      · have he : submit_job s data
            = (Except.error ⟨400, "Unknown summary type. Choose from: [\x27comprehensive\x27, \x27executive\x27, \x27bullet_points\x27]"⟩, s) := by
          simp [submit_job, h1, h2, h3]
        rw [he]
        exact ⟨⟨_, rfl, rfl⟩, rfl⟩
      · rcases h with h | h | h
        · exact absurd h h1
        · exact absurd h2 h
        · exact absurd h h3
    · have he : submit_job s data
          = (Except.error ⟨400, "Unknown model. Choose from: [\x27llama3.2\x27, \x27phi3\x27]"⟩, s) := by
        simp [submit_job, h1, h2]
      rw [he]
      exact ⟨⟨_, rfl, rfl⟩, rfl⟩

/-- Witness for C8 on a whitespace-only submission. -/
theorem submit_job_validation_rejects_witness :
    (∃ e, (submit_job initState ⟨" ", "llama3.2", "comprehensive"⟩).1
          = Except.error e ∧ e.status_code = 400)
      ∧ (submit_job initState ⟨" ", "llama3.2", "comprehensive"⟩).2 = initState :=
  submit_job_validation_rejects initState ⟨" ", "llama3.2", "comprehensive"⟩
    (Or.inl (by decide))

/-- C7: each submission returns the current counter value as its fresh
identifier — absent from the store, so nothing is overwritten and any
sequence of N submissions yields N distinct ids (the counter strictly
increases on submission and never decreases on any step) — the new job
is immediately visible to `get_status` as `QUEUED`, and no step ever
removes a stored job, so a `get_status` issued after the submit can
never observe not-found. -/
theorem submit_fresh_ids (s : QState) (hr : Reachable s) (t m ty : String) :
    (submit s t m ty).1 = s.nextId
    ∧ (submit s t m ty).1 ∉ s.jobs.map Prod.fst
    ∧ (submit s t m ty).2.nextId = s.nextId + 1
    ∧ (∀ e, s.nextId ≤ (step s e).nextId)
    ∧ (∃ d, get_status (submit s t m ty).2 (submit s t m ty).1 = some d
        ∧ d.status = JobStatus.queued)
    ∧ (∀ i j e, lookupJob i s.jobs = some j →
        ∃ j', lookupJob i (step s e).jobs = some j') := by
  have hinv := reachable_inv hr
  have hnotin : s.nextId ∉ s.jobs.map Prod.fst := by
    intro hmem
    obtain ⟨p, hp, hpe⟩ := List.mem_map.mp hmem
    exact absurd (hpe ▸ hinv.keys_lt p hp) (lt_irrefl _)
  refine ⟨rfl, hnotin, rfl, ?_, ?_, ?_⟩
  · intro e
    cases e with
    | submit t2 m2 ty2 => exact Nat.le_succ _
    | dequeue =>
        cases hph : s.phase with
        | busy b st => rw [step_dequeue_busy hph]
        | idle =>
            cases hq : s.queue with
            | nil => rw [step_dequeue_nil hq]
            | cons q0 rest =>
                rw [step_dequeue_eq hph hq]
    | finish o =>
        cases hph : s.phase with
        | idle => rw [step_finish_idle hph o]
        | busy bid st => rw [step_finish_eq hph o]
  · refine ⟨(mkJob s.nextId t m ty s.clock).to_dict, ?_, rfl⟩
    show (lookupJob s.nextId
        (s.jobs ++ [(s.nextId, mkJob s.nextId t m ty s.clock)])).map Job.to_dict
      = some (mkJob s.nextId t m ty s.clock).to_dict
    rw [lookupJob_append_none _ (lookupJob_eq_none hnotin)]
    simp [lookupJob]
  · intro i j e h1
    exact lookup_persists e h1

/-- Witness for C7 at the startup state. -/
theorem submit_fresh_ids_witness :
    (submit initState "doc" "llama3.2" "comprehensive").1 = initState.nextId
    ∧ (submit initState "doc" "llama3.2" "comprehensive").1
        ∉ initState.jobs.map Prod.fst
    ∧ (submit initState "doc" "llama3.2" "comprehensive").2.nextId
        = initState.nextId + 1
    ∧ (∀ e, initState.nextId ≤ (step initState e).nextId)
    ∧ (∃ d, get_status (submit initState "doc" "llama3.2" "comprehensive").2
          (submit initState "doc" "llama3.2" "comprehensive").1 = some d
        ∧ d.status = JobStatus.queued)
    ∧ (∀ i j e, lookupJob i initState.jobs = some j →
        ∃ j', lookupJob i (step initState e).jobs = some j') :=
  submit_fresh_ids initState Reachable.init "doc" "llama3.2" "comprehensive"

/-- C4: for every stored job at every reachable instant, `summary` and
`error` are mutually exclusive and both absent before a terminal state;
in particular a `get_status` reader that observes `COMPLETED` also
observes the summary present in the same snapshot. -/
theorem result_error_exclusive (s : QState) (hr : Reachable s) (i : Nat) (j : Job)
    (h : lookupJob i s.jobs = some j) :
    ((j.status = JobStatus.queued ∨ j.status = JobStatus.processing) →
        j.summary = none ∧ j.error = none)
    ∧ (j.status = JobStatus.completed →
        (∃ r, j.summary = some r) ∧ j.error = none)
    ∧ (j.status = JobStatus.failed →
        j.summary = none ∧ ∃ m, j.error = some m)
    ∧ ¬(j.summary ≠ none ∧ j.error ≠ none)
    ∧ (∀ d, get_status s i = some d → d.status = JobStatus.completed →
        ∃ r, d.summary = some r) := by
  have hinv := reachable_inv hr
  have hfo := hinv.fields_ok (i, j) (lookupJob_mem h)
  refine ⟨fun hqp => ⟨(hfo.1 hqp).1, (hfo.1 hqp).2.1⟩,
    fun hc => ⟨(hfo.2.1 hc).1, (hfo.2.1 hc).2.1⟩,
    fun hf => ⟨(hfo.2.2 hf).1, (hfo.2.2 hf).2.1⟩, ?_, ?_⟩
  · rintro ⟨hsm, her⟩
    cases hst : j.status with
    | queued => exact hsm (hfo.1 (Or.inl hst)).1
    | processing => exact hsm (hfo.1 (Or.inr hst)).1
    | completed => exact her (hfo.2.1 hst).2.1
    | failed => exact hsm (hfo.2.2 hst).1
  · intro d hd hds
    have hgs : get_status s i = some j.to_dict := by simp [get_status, h]
    rw [hgs] at hd
    obtain rfl : j.to_dict = d := Option.some.inj hd
    have hjc : j.status = JobStatus.completed := hds
    exact (hfo.2.1 hjc).1

/-- Witness for C4 on a freshly submitted (queued) job. -/
theorem result_error_exclusive_witness :
    (((mkJob 0 "A" "llama3.2" "comprehensive" 0).status = JobStatus.queued
        ∨ (mkJob 0 "A" "llama3.2" "comprehensive" 0).status = JobStatus.processing) →
        (mkJob 0 "A" "llama3.2" "comprehensive" 0).summary = none
          ∧ (mkJob 0 "A" "llama3.2" "comprehensive" 0).error = none)
    ∧ ((mkJob 0 "A" "llama3.2" "comprehensive" 0).status = JobStatus.completed →
        (∃ r, (mkJob 0 "A" "llama3.2" "comprehensive" 0).summary = some r)
          ∧ (mkJob 0 "A" "llama3.2" "comprehensive" 0).error = none)
    ∧ ((mkJob 0 "A" "llama3.2" "comprehensive" 0).status = JobStatus.failed →
        (mkJob 0 "A" "llama3.2" "comprehensive" 0).summary = none
          ∧ ∃ m, (mkJob 0 "A" "llama3.2" "comprehensive" 0).error = some m)
    ∧ ¬((mkJob 0 "A" "llama3.2" "comprehensive" 0).summary ≠ none
        ∧ (mkJob 0 "A" "llama3.2" "comprehensive" 0).error ≠ none)
    ∧ (∀ d, get_status (step initState (Event.submit "A" "llama3.2" "comprehensive"))
          0 = some d → d.status = JobStatus.completed → ∃ r, d.summary = some r) :=
  result_error_exclusive
    (step initState (Event.submit "A" "llama3.2" "comprehensive"))
    (Reachable.step _ (Event.submit "A" "llama3.2" "comprehensive") Reachable.init)
    0 (mkJob 0 "A" "llama3.2" "comprehensive" 0) rfl

/-- C1: a failing backend call is caught at the worker-loop boundary:
the in-flight job becomes `FAILED` with `error` set to the exception's
message, the worker returns to its dequeue point with the queue intact,
and every job still queued is subsequently dequeued and driven to a
terminal state — no backend exception terminates the worker loop. -/
theorem worker_failure_isolated (s : QState) (hr : Reachable s)
    (bid st : Nat) (hb : s.phase = WorkerPhase.busy bid st) (msg : String) :
    (∃ j, lookupJob bid (step s (Event.finish (Except.error msg))).jobs = some j
        ∧ j.status = JobStatus.failed ∧ j.error = some msg)
    ∧ (step s (Event.finish (Except.error msg))).phase = WorkerPhase.idle
    ∧ (step s (Event.finish (Except.error msg))).queue = s.queue
    ∧ ∀ os, os.length = s.queue.length →
        (drainRun (step s (Event.finish (Except.error msg))) os).queue = []
        ∧ ∀ i ∈ s.queue, ∃ j,
            lookupJob i
                (drainRun (step s (Event.finish (Except.error msg))) os).jobs
              = some j
            ∧ (j.status = JobStatus.completed ∨ j.status = JobStatus.failed) := by
  have hinv := reachable_inv hr
  obtain ⟨jb, hjb, hjbp⟩ := hinv.busy_processing bid st hb
  have hfe := step_finish_eq hb (Except.error msg)
  refine ⟨?_, by rw [hfe], by rw [hfe], ?_⟩
  · refine ⟨finishJob (Except.error msg) st s.clock jb, ?_, rfl, rfl⟩
    rw [hfe]
    dsimp only
    rw [lookupJob_update_self, hjb]
    rfl
  · intro os hlen
    have hinv2 := inv_step s (Event.finish (Except.error msg)) hinv
    have hidle2 : (step s (Event.finish (Except.error msg))).phase
        = WorkerPhase.idle := by rw [hfe]
    have hq2 : (step s (Event.finish (Except.error msg))).queue = s.queue := by
      rw [hfe]
    have hlen2 : os.length
        = (step s (Event.finish (Except.error msg))).queue.length := by
      rw [hq2]; exact hlen
    obtain ⟨hnil, hall⟩ :=
      drain_processes_all os _ hinv2 hidle2 hlen2
    refine ⟨hnil, ?_⟩
    intro i hi
    refine hall i ?_
    rw [hq2]
    exact hi

/-- A reachable state with job 0 in flight and job 1 still queued. -/
def busyState : QState :=
  step (step (step initState (Event.submit "A" "llama3.2" "comprehensive"))
      (Event.submit "B" "llama3.2" "comprehensive")) Event.dequeue

/-- Witness for C1: a backend exception at `busyState` marks job 0
failed with the exception message and sends the worker back to its
dequeue point. -/
theorem worker_failure_isolated_witness :
    (∃ j, lookupJob 0
          (step busyState (Event.finish (Except.error "boom"))).jobs = some j
        ∧ j.status = JobStatus.failed ∧ j.error = some "boom")
    ∧ (step busyState (Event.finish (Except.error "boom"))).phase
        = WorkerPhase.idle := by
  have h := worker_failure_isolated busyState
    (Reachable.step _ Event.dequeue
      (Reachable.step _ (Event.submit "B" "llama3.2" "comprehensive")
        (Reachable.step _ (Event.submit "A" "llama3.2" "comprehensive")
          Reachable.init)))
    0 2 rfl "boom"
  exact ⟨h.1, h.2.1⟩

/-- C3: every job is created `QUEUED`, and one atomic step never moves
a stored job backwards along the lifecycle, never jumps from `QUEUED`
straight to a terminal state, never changes a job that reached
`COMPLETED` or `FAILED`, and never overwrites an already-set `summary`
or `error` (each is written at most once). -/
theorem status_monotonic (s : QState) (hr : Reachable s) (e : Event) (i : Nat)
    (j j' : Job) (h1 : lookupJob i s.jobs = some j)
    (h2 : lookupJob i (step s e).jobs = some j') :
    statusRank j.status ≤ statusRank j'.status
    ∧ (j.status = JobStatus.queued →
        j'.status = JobStatus.queued ∨ j'.status = JobStatus.processing)
    ∧ ((j.status = JobStatus.completed ∨ j.status = JobStatus.failed) → j' = j)
    ∧ (∀ r, j.summary = some r → j'.summary = some r)
    ∧ (∀ m, j.error = some m → j'.error = some m)
    ∧ (∀ t m ty, ∃ jn,
        lookupJob (submit s t m ty).1 (submit s t m ty).2.jobs = some jn
          ∧ jn.status = JobStatus.queued) := by
  have hinv := reachable_inv hr
  have hnotin : s.nextId ∉ s.jobs.map Prod.fst := by
    intro hmem
    obtain ⟨p, hp, hpe⟩ := List.mem_map.mp hmem
    exact absurd (hpe ▸ hinv.keys_lt p hp) (lt_irrefl _)
  have hfresh : ∀ t m ty, ∃ jn,
      lookupJob (submit s t m ty).1 (submit s t m ty).2.jobs = some jn
        ∧ jn.status = JobStatus.queued := by
    intro t m ty
    refine ⟨mkJob s.nextId t m ty s.clock, ?_, rfl⟩
    show lookupJob s.nextId (s.jobs ++ [(s.nextId, mkJob s.nextId t m ty s.clock)])
      = some (mkJob s.nextId t m ty s.clock)
    rw [lookupJob_append_none _ (lookupJob_eq_none hnotin)]
    simp [lookupJob]
  rcases step_job_change hinv e h1 h2 with rfl | ⟨hjq, hje⟩ | ⟨hjp, o, st, hje⟩
  · exact ⟨Nat.le_refl _, fun hq => Or.inl hq, fun _ => rfl,
      fun r hr2 => hr2, fun m hm => hm, hfresh⟩
  · refine ⟨?_, fun _ => Or.inr (by rw [hje]), ?_, ?_, ?_, hfresh⟩
    · rw [hje, hjq]
      exact Nat.zero_le _
    · intro hterm
      rcases hterm with ht | ht <;> rw [hjq] at ht <;>
        exact JobStatus.noConfusion ht
    · intro r hr2; rw [hje]; exact hr2
    · intro m hm; rw [hje]; exact hm
  · refine ⟨?_, ?_, ?_, ?_, ?_, hfresh⟩
    · rw [hje, hjp]
      rcases finishJob_terminal o st s.clock j with hT | hT <;> rw [hT] <;>
        exact Nat.le_succ 1
    · intro hq
      rw [hjp] at hq
      exact JobStatus.noConfusion hq
    · intro hterm
      rcases hterm with ht | ht <;> rw [hjp] at ht <;>
        exact JobStatus.noConfusion ht
    · intro r hr2
      have hnone := (hinv.fields_ok (i, j) (lookupJob_mem h1)).1 (Or.inr hjp)
      rw [hnone.1] at hr2
      exact Option.noConfusion hr2
    · intro m hm
      have hnone := (hinv.fields_ok (i, j) (lookupJob_mem h1)).1 (Or.inr hjp)
      rw [hnone.2.1] at hm
      exact Option.noConfusion hm

/-- Witness for C3: the dequeue step moves the freshly submitted job 0
forward from `QUEUED` (to `PROCESSING`), not to a terminal state. -/
theorem status_monotonic_witness :
    statusRank (mkJob 0 "A" "llama3.2" "comprehensive" 0).status
      ≤ statusRank
          ({ mkJob 0 "A" "llama3.2" "comprehensive" 0 with
              status := JobStatus.processing } : Job).status
    ∧ ((mkJob 0 "A" "llama3.2" "comprehensive" 0).status = JobStatus.queued →
        ({ mkJob 0 "A" "llama3.2" "comprehensive" 0 with
            status := JobStatus.processing } : Job).status = JobStatus.queued
        ∨ ({ mkJob 0 "A" "llama3.2" "comprehensive" 0 with
            status := JobStatus.processing } : Job).status
          = JobStatus.processing) := by
  have h := status_monotonic
    (step initState (Event.submit "A" "llama3.2" "comprehensive"))
    (Reachable.step _ (Event.submit "A" "llama3.2" "comprehensive") Reachable.init)
    Event.dequeue 0
    (mkJob 0 "A" "llama3.2" "comprehensive" 0)
    { mkJob 0 "A" "llama3.2" "comprehensive" 0 with
        status := JobStatus.processing }
    rfl rfl
  exact ⟨h.1, h.2.1⟩

/-- C5: FIFO — in every reachable state the pending queue is strictly
increasing in job id (ids are assigned in submission order), and a
dequeue hands the worker exactly the queue head, which precedes every
other pending job in submission order; in the concrete scenario the
three jobs A, B, C submitted in that order all complete, in submission
order, with strictly increasing `completed_at` timestamps (4 < 6 < 8). -/
theorem fifo_order (s : QState) (hr : Reachable s) :
    s.queue.Chain' (· < ·)
    ∧ (∀ q0 rest, s.phase = WorkerPhase.idle → s.queue = q0 :: rest →
        (step s Event.dequeue).phase = WorkerPhase.busy q0 s.clock
        ∧ (step s Event.dequeue).queue = rest
        ∧ ∀ b ∈ rest, q0 < b)
    ∧ completedAtOf 0 scenarioABC = some 4
    ∧ completedAtOf 1 scenarioABC = some 6
    ∧ completedAtOf 2 scenarioABC = some 8
    ∧ statusOf 0 scenarioABC = some JobStatus.completed
    ∧ statusOf 1 scenarioABC = some JobStatus.completed
    ∧ statusOf 2 scenarioABC = some JobStatus.completed := by
  have hinv := reachable_inv hr
  refine ⟨hinv.queue_chain, ?_, by decide, by decide, by decide, by decide,
    by decide, by decide⟩
  intro q0 rest hidle hq
  have hde := step_dequeue_eq hidle hq
  have hc2 := hinv.queue_chain
  rw [hq] at hc2
  exact ⟨by rw [hde], by rw [hde], chain'_cons_lt hc2⟩

/-- Witness for C5 at a reachable state with two queued jobs. -/
theorem fifo_order_witness :
    (step (step initState (Event.submit "A" "llama3.2" "comprehensive"))
        (Event.submit "B" "llama3.2" "comprehensive")).queue.Chain' (· < ·)
    ∧ completedAtOf 0 scenarioABC = some 4
    ∧ completedAtOf 1 scenarioABC = some 6
    ∧ completedAtOf 2 scenarioABC = some 8 := by
  have h := fifo_order
    (step (step initState (Event.submit "A" "llama3.2" "comprehensive"))
      (Event.submit "B" "llama3.2" "comprehensive"))
    (Reachable.step _ (Event.submit "B" "llama3.2" "comprehensive")
      (Reachable.step _ (Event.submit "A" "llama3.2" "comprehensive")
        Reachable.init))
  exact ⟨h.1, h.2.2.1, h.2.2.2.1, h.2.2.2.2.1⟩
